import Mathlib

/-!
# Verification of the handshake detection loop
(`Subtrees/beast/modules/beast_asio/handshake/beast_HandshakeDetectStream.h`)

Shallow embedding of `HandshakeDetectStreamType`:

* the classification policy (`HandshakeDetectLogicType <Logic>`) is a record
  `Logic σ` of the four queries the loop consumes: `max_needed`, `analyze`,
  `finished`, `bytes_consumed`;
* the arena (`boost::asio::streambuf m_buffer`) is a `List Byte` of readable
  bytes; `prepare (n)`/`commit` of a transport read of `n` bytes delivering
  `bs` becomes appending `bs.take n` (the transport can fill at most the
  prepared space); `consume k` is `List.drop k`;
* the transport is a list of completions `(Err × List Byte)`: each blocking
  `read_some` / scheduled `async_read_some` takes the next completion
  (error code, bytes written into the prepared buffer);
* `bassert` and `check_postcondition` failures are modelled as the terminal
  outcomes `fatalAssert` / `fatalCheck` (fatal aborts, not error returns);
* a run records the outcome together with every read request issued
  (`available`, `needed`, and the size `needed - available` of the prepared
  buffer), the list of byte chunks committed, and the number of `analyze`
  calls, so that the theorems can speak about reads, commits and analyses.
-/

abbrev Byte := Nat

/-- `boost::system::error_code`, truthy when nonzero; `0` is success. -/
abbrev Err := Nat

/-- The classification policy interface consumed by the loop
(`m_logic : HandshakeDetectLogicType <Logic>`). `σ` is its opaque state;
the delivered verdict payload (`m_logic.get ()`) is the final state. -/
structure Logic (σ : Type) where
  max_needed : σ → Nat
  analyze : σ → List Byte → σ
  finished : σ → Bool
  bytes_consumed : σ → Nat

/-- One read request issued to the transport: the readable byte count and the
policy need at issue time, and the size of the prepared mutable buffer. -/
structure ReadReq where
  available : Nat
  needed : Nat
  size : Nat
deriving DecidableEq, Repr

/-- Which completion signature a delivery went to: the error-only
`m_origHandler` (`ErrorCall`) or the error-plus-count `m_origBufferedHandler`
(`TransferCall`). -/
inductive HandlerKind
  | errorOnly
  | errorPlusCount
deriving DecidableEq, Repr

/-- Terminal outcome of one detection run.

* `detected v retEc leftover`: the blocking loop called
  `m_callback->on_detect (logic, ec, leftover)` and returned the (possibly
  handler-modified) `retEc`;
* `transportError e`: the blocking loop observed a failed read and returned
  `e` from `do_handshake` (no `on_detect` call is made on this path);
* `asyncDetected v leftover k`: the suspending loop delivered the verdict via
  the `on_async_detect` overload selected by `k`;
* `asyncError v e leftover k`: the suspending loop delivered a transport error
  via the `on_async_detect` overload selected by `k`;
* `fatalCheck`: `check_postcondition (available < needed)` failed;
* `fatalAssert`: `bassert (consumed <= m_buffer.size ())` failed;
* `outOfInput`: a read was issued but the modelled transport has no further
  completion (the real stream would wait forever). -/
inductive Outcome (σ : Type)
  | detected (verdict : σ) (retEc : Err) (leftover : List Byte)
  | transportError (e : Err)
  | asyncDetected (verdict : σ) (leftover : List Byte) (k : HandlerKind)
  | asyncError (verdict : σ) (e : Err) (leftover : List Byte) (k : HandlerKind)
  | fatalCheck
  | fatalAssert
  | outOfInput
deriving DecidableEq, Repr

/-- Result of a run: outcome, the read requests issued, the chunks committed
to the arena (in order), and how many times `analyze` was called. -/
structure RunResult (σ : Type) where
  outcome : Outcome σ
  reqs : List ReadReq
  chunks : List (List Byte)
  nAnalyze : Nat
deriving DecidableEq, Repr

/-- The two continuation slots `m_origHandler` / `m_origBufferedHandler`;
`true` means populated (`!isNull ()`). -/
structure Handlers where
  origHandler : Bool
  origBufferedHandler : Bool
deriving DecidableEq, Repr

/-- Freshly constructed stream: both continuation slots null. -/
def emptyHandlers : Handlers := ⟨false, false⟩

/-- `async_handshake (type, handler)`: populates `m_origHandler`
(the `ErrorCall` slot). -/
def async_handshake_plain (h : Handlers) : Handlers :=
  { h with origHandler := true }

/-- `async_handshake (type, buffers, handler)`: populates
`m_origBufferedHandler` (the `TransferCall` slot). -/
def async_handshake_buffered (h : Handlers) : Handlers :=
  { h with origBufferedHandler := true }

/-- Delivery selection in `on_async_read_some`: the buffered handler is
checked first (`if (! m_origBufferedHandler.isNull ())`), otherwise the
error-only handler is used. -/
def Handlers.kind (h : Handlers) : HandlerKind :=
  if h.origBufferedHandler then .errorPlusCount else .errorOnly

/-- The `do {...} while (! ec)` loop of `do_handshake`, entered with policy
state `s`, arena contents `buf`, and remaining transport completions `evs`.

Per iteration (mirroring lines 201-231):
`available = m_buffer.size (); needed = m_logic.max_needed ()`; if
`available < needed`, prepare `needed - available` bytes, read, and commit
what the transport returned (capped by the prepared size); on read error
exit the loop and return the error (the `if (! ec)` guard skips `analyze`
and `on_detect`); otherwise `analyze` the whole buffer; if `finished`,
assert `bytes_consumed <= size`, consume, call `on_detect` (whose final
mutable `ec` becomes the return value); else `check_postcondition
(available < needed)` — with the pre-read `available`/`needed` — and loop. -/
def blockingLoop {σ : Type} (L : Logic σ) (onDetect : σ → Err → List Byte → Err) :
    σ → List Byte → List (Err × List Byte) → RunResult σ
  | s, buf, evs =>
    let available := buf.length
    let needed := L.max_needed s
    if available < needed then
      match evs with
      | [] => ⟨.outOfInput, [⟨available, needed, needed - available⟩], [], 0⟩
      | (e, bs) :: rest =>
        let chunk := bs.take (needed - available)
        let buf' := buf ++ chunk
        if e ≠ 0 then
          ⟨.transportError e, [⟨available, needed, needed - available⟩], [chunk], 0⟩
        else
          let s' := L.analyze s buf'
          if L.finished s' then
            let consumed := L.bytes_consumed s'
            if consumed ≤ buf'.length then
              let leftover := buf'.drop consumed
              ⟨.detected s' (onDetect s' 0 leftover) leftover,
                [⟨available, needed, needed - available⟩], [chunk], 1⟩
            else
              ⟨.fatalAssert, [⟨available, needed, needed - available⟩], [chunk], 1⟩
          else
            let r := blockingLoop L onDetect s' buf' rest
            ⟨r.outcome, ⟨available, needed, needed - available⟩ :: r.reqs,
              chunk :: r.chunks, r.nAnalyze + 1⟩
    else
      let s' := L.analyze s buf
      if L.finished s' then
        let consumed := L.bytes_consumed s'
        if consumed ≤ buf.length then
          let leftover := buf.drop consumed
          ⟨.detected s' (onDetect s' 0 leftover) leftover, [], [], 1⟩
        else ⟨.fatalAssert, [], [], 1⟩
      else ⟨.fatalCheck, [], [], 1⟩

/-- `do_handshake (type, ec, buffers)`: resets `ec` to success (so the
parameter `ecIn` is discarded), commits the caller-supplied `initial` bytes
after any bytes previously placed by `fill`, and runs the blocking loop. -/
def do_handshake {σ : Type} (L : Logic σ) (onDetect : σ → Err → List Byte → Err)
    (s0 : σ) (_ecIn : Err) (fillBytes initial : List Byte)
    (evs : List (Err × List Byte)) : RunResult σ :=
  blockingLoop L onDetect s0 (fillBytes ++ initial) evs

/-- The `error_code` value `do_handshake` returns to its caller:
the handler-left value on detection, the transport error on a failed read,
and nothing when the run aborted fatally (or the model ran out of input). -/
def handshake_return {σ : Type} (r : RunResult σ) : Option Err :=
  match r.outcome with
  | .detected _ retEc _ => some retEc
  | .transportError e => some e
  | _ => none

/-- `on_async_read_some (ec, bytes_transferred)` — the suspending loop
(lines 250-316), entered with policy state `s`, already-committed arena
contents `buf`, the just-completed read's error `ec` and delivered bytes
`chunk`, and the remaining transport completions `evs`.

On error: skip the commit and deliver `(m_logic.get (), ec, m_buffer.data ())`
to the `on_async_detect` overload matching the populated continuation slot.
Otherwise commit, take `available = m_buffer.size ()` and
`needed = m_logic.max_needed ()` (queried before `analyze`), analyze only if
`bytes_transferred > 0`, deliver on `finished`, else
`check_postcondition (available < needed)` and schedule the next read of
`needed - available` bytes. -/
def on_async_read_some {σ : Type} (L : Logic σ) (h : Handlers) :
    σ → List Byte → Err → List Byte → List (Err × List Byte) → RunResult σ
  | s, buf, ec, chunk, evs =>
    if ec ≠ 0 then
      ⟨.asyncError s ec buf h.kind, [], [], 0⟩
    else
      let buf' := buf ++ chunk
      let available := buf'.length
      let needed := L.max_needed s
      let s' := if 0 < chunk.length then L.analyze s buf' else s
      let na := if 0 < chunk.length then 1 else 0
      if L.finished s' then
        let consumed := L.bytes_consumed s'
        if consumed ≤ buf'.length then
          ⟨.asyncDetected s' (buf'.drop consumed) h.kind, [], [chunk], na⟩
        else ⟨.fatalAssert, [], [chunk], na⟩
      else if available < needed then
        match evs with
        | [] => ⟨.outOfInput, [⟨available, needed, needed - available⟩], [chunk], na⟩
        | (e, bs) :: rest =>
          let r := on_async_read_some L h s' buf' e (bs.take (needed - available)) rest
          ⟨r.outcome, ⟨available, needed, needed - available⟩ :: r.reqs,
            chunk :: r.chunks, na + r.nAnalyze⟩
      else ⟨.fatalCheck, [], [chunk], na⟩

/-- `async_do_handshake (type, buffers)`: copies the caller's `initial` bytes
into prepared arena space and bootstraps the suspending loop by invoking
`on_async_read_some (error_code (), bytes_transferred)` with
`bytes_transferred = initial.length`; bytes previously placed by `fill` are
already committed in the arena. -/
def async_do_handshake {σ : Type} (L : Logic σ) (h : Handlers) (s0 : σ)
    (fillBytes initial : List Byte) (evs : List (Err × List Byte)) : RunResult σ :=
  on_async_read_some L h s0 fillBytes 0 initial evs

/-- Observable summary of an outcome: the verdict and leftover bytes handed
to the result handler on success, the error code on a transport error, and
the abort class otherwise. Used to compare the two loop variants. -/
inductive Obs (σ : Type)
  | done (verdict : σ) (leftover : List Byte)
  | ioErr (e : Err)
  | fatalC
  | fatalA
  | stuck
deriving DecidableEq, Repr

/-- Project an outcome to its observable summary. -/
def Outcome.obs {σ : Type} : Outcome σ → Obs σ
  | .detected v _ lo => .done v lo
  | .asyncDetected v lo _ => .done v lo
  | .transportError e => .ioErr e
  | .asyncError _ e _ _ => .ioErr e
  | .fatalCheck => .fatalC
  | .fatalAssert => .fatalA
  | .outOfInput => .stuck

/-- Which `on_async_detect` overload (if any) an outcome delivered to. -/
def Outcome.deliveredTo {σ : Type} : Outcome σ → Option HandlerKind
  | .asyncDetected _ _ k => some k
  | .asyncError _ _ _ k => some k
  | _ => none

/-- Whether the blocking run invoked `m_callback->on_detect` (it does so only
on the `detected` path; a failed read returns `ec` without any callback). -/
def Outcome.onDetectCalled {σ : Type} : Outcome σ → Bool
  | .detected _ _ _ => true
  | _ => false

/-- Finishing observable for a buffer analysed from scratch: analyze, then
either deliver the verdict with the post-consume leftover, or abort. -/
def gFin {σ : Type} (L : Logic σ) (s0 : σ) (buf : List Byte) : Obs σ :=
  let s := L.analyze s0 buf
  if L.finished s then
    if L.bytes_consumed s ≤ buf.length then .done s (buf.drop (L.bytes_consumed s))
    else .fatalA
  else .fatalC

/-- Canonical accumulate-then-classify run for a policy with constant need
`N` and history-independent analyze: top the buffer up to `N` bytes from the
completions, then finish. Both loop variants are proved to project onto it. -/
def gRun {σ : Type} (L : Logic σ) (s0 : σ) (N : Nat) :
    List Byte → List (Err × List Byte) → Obs σ
  | buf, evs =>
    if N ≤ buf.length then gFin L s0 buf
    else
      match evs with
      | [] => .stuck
      | (e, bs) :: rest =>
        if e ≠ 0 then .ioErr e
        else gRun L s0 N (buf ++ bs.take (N - buf.length)) rest

/-- Closed form of `gRun`: the observable depends only on the first `N`
bytes of the concatenated supply (or errors/sticks when they never arrive). -/
def gBig {σ : Type} (L : Logic σ) (s0 : σ) (N : Nat) (buf bs : List Byte) : Obs σ :=
  if N ≤ buf.length then gFin L s0 buf
  else if N ≤ buf.length + bs.length then gFin L s0 ((buf ++ bs).take N)
  else .stuck

/-- The same byte sequence delivered as one-byte transport completions. -/
def oneByteEvs (bs : List Byte) : List (Err × List Byte) :=
  bs.map fun b => (0, [b])

/-- A peek-only one-byte classifier in the style of the SSL detector: needs
one byte, remembers the scanned bytes, finishes once a byte is present,
consumes nothing. Satisfies the §4.2 policy contract; initial state `none`. -/
def sslL : Logic (Option (List Nat)) where
  max_needed := fun _ => 1
  analyze := fun _ bs => some bs
  finished := fun s => match s with | none => false | some bs => decide (1 ≤ bs.length)
  bytes_consumed := fun _ => 0

/-- A result handler that leaves the mutable `ec` untouched. -/
def cb0 : Option (List Nat) → Err → List Byte → Err := fun _ ec _ => ec

/-- A result handler that overwrites the mutable `ec` with error `7`, turning
a successful detection into an error return of `handshake`. -/
def cb7 : Option (List Nat) → Err → List Byte → Err := fun _ _ _ => 7

/-- A contract-satisfying policy whose `bytesNeeded` varies with state:
a fresh policy asks for 3 bytes, an analysed one for 2; it finishes exactly
at 3 scanned bytes and consumes nothing. Initial state `[]`. -/
def varL : Logic (List Nat) where
  max_needed := fun s => if s.length = 0 then 3 else 2
  analyze := fun _ bs => bs
  finished := fun s => decide (3 ≤ s.length)
  bytes_consumed := fun _ => 0

/-- A result handler over `varL`'s state that leaves `ec` untouched. -/
def cbv : List Nat → Err → List Byte → Err := fun _ ec _ => ec

example :
    (do_handshake sslL cb0 none 0 [] [] [(0, [22])]).outcome
      = .detected (some [22]) 0 [22] := by decide

example :
    (async_do_handshake sslL (async_handshake_plain emptyHandlers) none [] [22] []).outcome
      = .asyncDetected (some [22]) [22] .errorOnly := by decide

example :
    (do_handshake sslL cb0 none 0 [22] [] []).outcome.obs
      = .done (some [22]) [22] := by decide

example :
    (async_do_handshake sslL (async_handshake_plain emptyHandlers) none [22] [] []).outcome.obs
      = .fatalC := by decide

example :
    (do_handshake varL cbv [] 0 [] [] (oneByteEvs [1, 2, 3])).outcome.obs
      = .fatalC := by decide

example :
    (do_handshake varL cbv [] 0 [] [] [(0, [1, 2, 3])]).outcome.obs
      = .done [1, 2, 3] [1, 2, 3] := by decide

/-! ## Characterization lemmas for the blocking loop -/

/-- If the blocking loop ends in `detected`, the returned error code is
whatever the handler left in the mutable `ec` (entered as success), and the
leftover is the full committed byte sequence minus the consumed front. -/
theorem blocking_detected_char {σ : Type} (L : Logic σ) (cb : σ → Err → List Byte → Err) :
    ∀ (evs : List (Err × List Byte)) (s : σ) (buf : List Byte) (v : σ) (re : Err) (lo : List Byte),
      (blockingLoop L cb s buf evs).outcome = .detected v re lo →
      re = cb v 0 lo ∧
      lo = (buf ++ (blockingLoop L cb s buf evs).chunks.flatten).drop (L.bytes_consumed v) := by
  intro evs
  induction evs with
  | nil =>
    intro s buf v re lo hout
    rw [blockingLoop] at hout ⊢
    simp only at hout ⊢
    by_cases hlt : buf.length < L.max_needed s
    · simp only [if_pos hlt] at hout
      simp at hout
    · simp only [if_neg hlt] at hout ⊢
      by_cases hfin : L.finished (L.analyze s buf)
      · simp only [if_pos hfin] at hout ⊢
        by_cases hc : L.bytes_consumed (L.analyze s buf) ≤ buf.length
        · simp only [if_pos hc, Outcome.detected.injEq] at hout ⊢
          obtain ⟨hv, hre, hlo⟩ := hout
          subst hv; subst hre; subst hlo
          simp
        · simp only [if_neg hc] at hout
          simp at hout
      · simp only [if_neg hfin] at hout
        simp at hout
  | cons ev rest ih =>
    intro s buf v re lo hout
    obtain ⟨e, bs⟩ := ev
    rw [blockingLoop] at hout ⊢
    simp only at hout ⊢
    by_cases hlt : buf.length < L.max_needed s
    · simp only [if_pos hlt] at hout ⊢
      by_cases he : e ≠ 0
      · simp only [if_pos he] at hout
        simp at hout
      · simp only [if_neg he] at hout ⊢
        by_cases hfin :
            L.finished (L.analyze s (buf ++ bs.take (L.max_needed s - buf.length)))
        · simp only [if_pos hfin] at hout ⊢
          by_cases hc :
              L.bytes_consumed (L.analyze s (buf ++ bs.take (L.max_needed s - buf.length)))
                ≤ (buf ++ bs.take (L.max_needed s - buf.length)).length
          · simp only [if_pos hc, Outcome.detected.injEq] at hout ⊢
            obtain ⟨hv, hre, hlo⟩ := hout
            subst hv; subst hre; subst hlo
            simp
          · simp only [if_neg hc] at hout
            simp at hout
        · simp only [if_neg hfin] at hout ⊢
          have := ih _ _ v re lo hout
          simpa [List.append_assoc] using this
    · simp only [if_neg hlt] at hout ⊢
      by_cases hfin : L.finished (L.analyze s buf)
      · simp only [if_pos hfin] at hout ⊢
        by_cases hc : L.bytes_consumed (L.analyze s buf) ≤ buf.length
        · simp only [if_pos hc, Outcome.detected.injEq] at hout ⊢
          obtain ⟨hv, hre, hlo⟩ := hout
          subst hv; subst hre; subst hlo
          simp
        · simp only [if_neg hc] at hout
          simp at hout
      · simp only [if_neg hfin] at hout
        simp at hout

/-- A `transportError` ending of the blocking loop is insensitive to any
further transport completions: appending events changes nothing, so no
further read (and no further analyze) happens after a failed read. -/
theorem blocking_error_ext {σ : Type} (L : Logic σ) (cb : σ → Err → List Byte → Err) :
    ∀ (evs : List (Err × List Byte)) (s : σ) (buf : List Byte) (e : Err)
      (ext : List (Err × List Byte)),
      (blockingLoop L cb s buf evs).outcome = .transportError e →
      blockingLoop L cb s buf (evs ++ ext) = blockingLoop L cb s buf evs := by
  intro evs
  induction evs with
  | nil =>
    intro s buf e ext hout
    rw [blockingLoop] at hout
    simp only at hout
    split_ifs at hout
  | cons ev rest ih =>
    intro s buf e ext hout
    obtain ⟨e', bs⟩ := ev
    rw [List.cons_append]
    rw [blockingLoop] at hout
    conv_lhs => rw [blockingLoop]
    conv_rhs => rw [blockingLoop]
    simp only at hout ⊢
    by_cases hlt : buf.length < L.max_needed s
    · simp only [if_pos hlt] at hout ⊢
      by_cases he : e' ≠ 0
      · simp only [if_pos he]
      · simp only [if_neg he] at hout ⊢
        by_cases hfin :
            L.finished (L.analyze s (buf ++ bs.take (L.max_needed s - buf.length)))
        · simp only [if_pos hfin] at hout ⊢
        · simp only [if_neg hfin] at hout ⊢
          rw [ih _ _ e _ hout]
    · simp only [if_neg hlt] at hout ⊢

/-- A `transportError e` of the blocking loop reports a genuine transport
failure: `e` is the nonzero error code of the completion that failed. -/
theorem blocking_error_nonzero {σ : Type} (L : Logic σ) (cb : σ → Err → List Byte → Err) :
    ∀ (evs : List (Err × List Byte)) (s : σ) (buf : List Byte) (e : Err),
      (blockingLoop L cb s buf evs).outcome = .transportError e → e ≠ 0 := by
  intro evs
  induction evs with
  | nil =>
    intro s buf e hout
    rw [blockingLoop] at hout
    simp only at hout
    split_ifs at hout
  | cons ev rest ih =>
    intro s buf e hout
    obtain ⟨e', bs⟩ := ev
    rw [blockingLoop] at hout
    simp only at hout
    by_cases hlt : buf.length < L.max_needed s
    · simp only [if_pos hlt] at hout
      by_cases he : e' ≠ 0
      · simp only [if_pos he, Outcome.transportError.injEq] at hout
        subst hout; exact he
      · simp only [if_neg he] at hout
        by_cases hfin :
            L.finished (L.analyze s (buf ++ bs.take (L.max_needed s - buf.length)))
        · simp only [if_pos hfin] at hout
          split_ifs at hout
        · simp only [if_neg hfin] at hout
          exact ih _ _ e hout
    · simp only [if_neg hlt] at hout
      split_ifs at hout

/-- Every read request issued by the blocking loop happens only while the
arena is short (`available < needed`), and the prepared buffer is exactly
`needed - available` bytes. -/
theorem blocking_reqs_bound {σ : Type} (L : Logic σ) (cb : σ → Err → List Byte → Err) :
    ∀ (evs : List (Err × List Byte)) (s : σ) (buf : List Byte) (q : ReadReq),
      q ∈ (blockingLoop L cb s buf evs).reqs →
      q.available < q.needed ∧ q.size = q.needed - q.available := by
  intro evs
  induction evs with
  | nil =>
    intro s buf q hq
    rw [blockingLoop] at hq
    simp only at hq
    split_ifs at hq <;> simp_all
  | cons ev rest ih =>
    intro s buf q hq
    obtain ⟨e', bs⟩ := ev
    rw [blockingLoop] at hq
    simp only at hq
    by_cases hlt : buf.length < L.max_needed s
    · simp only [if_pos hlt] at hq
      by_cases he : e' ≠ 0
      · simp only [if_pos he] at hq
        simp at hq
        simp [hq, hlt]
      · simp only [if_neg he] at hq
        by_cases hfin :
            L.finished (L.analyze s (buf ++ bs.take (L.max_needed s - buf.length)))
        · simp only [if_pos hfin] at hq
          split_ifs at hq <;> · simp at hq; simp [hq, hlt]
        · simp only [if_neg hfin] at hq
          simp only [List.mem_cons] at hq
          rcases hq with hq | hq
          · simp [hq, hlt]
          · exact ih _ _ q hq
    · simp only [if_neg hlt] at hq
      split_ifs at hq <;> simp_all

/-- If the policy never claims to have consumed more than the bytes it was
given to analyze, the blocking loop's `bassert (consumed <= size)` holds. -/
theorem blocking_no_assert {σ : Type} (L : Logic σ) (cb : σ → Err → List Byte → Err)
    (hB : ∀ (s : σ) (bs : List Byte), L.bytes_consumed (L.analyze s bs) ≤ bs.length) :
    ∀ (evs : List (Err × List Byte)) (s : σ) (buf : List Byte),
      (blockingLoop L cb s buf evs).outcome ≠ .fatalAssert := by
  intro evs
  induction evs with
  | nil =>
    intro s buf
    rw [blockingLoop]
    simp only
    split_ifs with h1 h2 h3
    · simp
    · simp
    · exact absurd (hB s buf) h3
    · simp
  | cons ev rest ih =>
    intro s buf
    obtain ⟨e', bs⟩ := ev
    rw [blockingLoop]
    simp only
    by_cases hlt : buf.length < L.max_needed s
    · simp only [if_pos hlt]
      by_cases he : e' ≠ 0
      · simp only [if_pos he]
        simp
      · simp only [if_neg he]
        by_cases hfin :
            L.finished (L.analyze s (buf ++ bs.take (L.max_needed s - buf.length)))
        · simp only [if_pos hfin]
          split_ifs with hc
          · simp
          · exact absurd (hB s _) hc
        · simp only [if_neg hfin]
          exact ih _ _
    · simp only [if_neg hlt]
      split_ifs with h2 h3
      · simp
      · exact absurd (hB s buf) h3
      · simp

/-! ## Characterization lemmas for the suspending loop -/

/-- If the suspending loop delivers a verdict, it does so through the
`on_async_detect` overload matching the populated continuation slot, and the
leftover is the full committed byte sequence minus the consumed front. -/
theorem async_detected_char {σ : Type} (L : Logic σ) (h : Handlers) :
    ∀ (evs : List (Err × List Byte)) (s : σ) (buf : List Byte) (ec : Err)
      (chunk : List Byte) (v : σ) (lo : List Byte) (k : HandlerKind),
      (on_async_read_some L h s buf ec chunk evs).outcome = .asyncDetected v lo k →
      k = h.kind ∧
      lo = (buf ++ (on_async_read_some L h s buf ec chunk evs).chunks.flatten).drop
            (L.bytes_consumed v) := by
  intro evs
  induction evs with
  | nil =>
    intro s buf ec chunk v lo k hout
    rw [on_async_read_some] at hout ⊢
    simp only at hout ⊢
    by_cases hec : ec ≠ 0
    · simp only [if_pos hec] at hout
      simp at hout
    · simp only [if_neg hec] at hout ⊢
      by_cases hfin : L.finished (if 0 < chunk.length then L.analyze s (buf ++ chunk) else s)
      · simp only [if_pos hfin] at hout ⊢
        by_cases hc :
            L.bytes_consumed (if 0 < chunk.length then L.analyze s (buf ++ chunk) else s)
              ≤ (buf ++ chunk).length
        · simp only [if_pos hc, Outcome.asyncDetected.injEq] at hout ⊢
          obtain ⟨hv, hlo, hk⟩ := hout
          subst hv; subst hlo; subst hk
          simp
        · simp only [if_neg hc] at hout
          simp at hout
      · simp only [if_neg hfin] at hout
        split_ifs at hout
  | cons ev rest ih =>
    intro s buf ec chunk v lo k hout
    obtain ⟨e', bs⟩ := ev
    rw [on_async_read_some] at hout ⊢
    simp only at hout ⊢
    by_cases hec : ec ≠ 0
    · simp only [if_pos hec] at hout
      simp at hout
    · simp only [if_neg hec] at hout ⊢
      by_cases hfin : L.finished (if 0 < chunk.length then L.analyze s (buf ++ chunk) else s)
      · simp only [if_pos hfin] at hout ⊢
        by_cases hc :
            L.bytes_consumed (if 0 < chunk.length then L.analyze s (buf ++ chunk) else s)
              ≤ (buf ++ chunk).length
        · simp only [if_pos hc, Outcome.asyncDetected.injEq] at hout ⊢
          obtain ⟨hv, hlo, hk⟩ := hout
          subst hv; subst hlo; subst hk
          simp
        · simp only [if_neg hc] at hout
          simp at hout
      · simp only [if_neg hfin] at hout ⊢
        by_cases hlt : (buf ++ chunk).length < L.max_needed s
        · simp only [if_pos hlt] at hout ⊢
          have := ih _ _ e' _ v lo k hout
          simpa [List.append_assoc] using this
        · simp only [if_neg hlt] at hout
          simp at hout

/-- If the suspending loop delivers an error, it delivers the nonzero error
code of the failed completion, through the overload matching the populated
continuation slot, together with all bytes committed so far. -/
theorem async_error_char {σ : Type} (L : Logic σ) (h : Handlers) :
    ∀ (evs : List (Err × List Byte)) (s : σ) (buf : List Byte) (ec : Err)
      (chunk : List Byte) (v : σ) (e : Err) (lo : List Byte) (k : HandlerKind),
      (on_async_read_some L h s buf ec chunk evs).outcome = .asyncError v e lo k →
      k = h.kind ∧ e ≠ 0 ∧
      lo = buf ++ (on_async_read_some L h s buf ec chunk evs).chunks.flatten := by
  intro evs
  induction evs with
  | nil =>
    intro s buf ec chunk v e lo k hout
    rw [on_async_read_some] at hout ⊢
    simp only at hout ⊢
    by_cases hec : ec ≠ 0
    · simp only [if_pos hec, Outcome.asyncError.injEq] at hout ⊢
      obtain ⟨hv, he, hlo, hk⟩ := hout
      subst he; subst hlo; subst hk
      simp [hec]
    · simp only [if_neg hec] at hout ⊢
      split_ifs at hout
  | cons ev rest ih =>
    intro s buf ec chunk v e lo k hout
    obtain ⟨e', bs⟩ := ev
    rw [on_async_read_some] at hout ⊢
    simp only at hout ⊢
    by_cases hec : ec ≠ 0
    · simp only [if_pos hec, Outcome.asyncError.injEq] at hout ⊢
      obtain ⟨hv, he, hlo, hk⟩ := hout
      subst he; subst hlo; subst hk
      simp [hec]
    · simp only [if_neg hec] at hout ⊢
      by_cases hfin : L.finished (if 0 < chunk.length then L.analyze s (buf ++ chunk) else s)
      · simp only [if_pos hfin] at hout
        split_ifs at hout
      · simp only [if_neg hfin] at hout ⊢
        by_cases hlt : (buf ++ chunk).length < L.max_needed s
        · simp only [if_pos hlt] at hout ⊢
          have := ih _ _ e' _ v e lo k hout
          simpa [List.append_assoc] using this
        · simp only [if_neg hlt] at hout
          simp at hout

/-- An `asyncError` ending of the suspending loop is insensitive to any
further transport completions: appending events changes nothing, so no
further read (and no further analyze) happens after a failed read. -/
theorem async_error_ext {σ : Type} (L : Logic σ) (h : Handlers) :
    ∀ (evs : List (Err × List Byte)) (s : σ) (buf : List Byte) (ec : Err)
      (chunk : List Byte) (v : σ) (e : Err) (lo : List Byte) (k : HandlerKind)
      (ext : List (Err × List Byte)),
      (on_async_read_some L h s buf ec chunk evs).outcome = .asyncError v e lo k →
      on_async_read_some L h s buf ec chunk (evs ++ ext)
        = on_async_read_some L h s buf ec chunk evs := by
  intro evs
  induction evs with
  | nil =>
    intro s buf ec chunk v e lo k ext hout
    rw [on_async_read_some] at hout
    simp only at hout
    by_cases hec : ec ≠ 0
    · conv_lhs => rw [on_async_read_some]
      conv_rhs => rw [on_async_read_some]
      simp only [if_pos hec]
    · simp only [if_neg hec] at hout
      split_ifs at hout
  | cons ev rest ih =>
    intro s buf ec chunk v e lo k ext hout
    obtain ⟨e', bs⟩ := ev
    rw [List.cons_append]
    rw [on_async_read_some] at hout
    conv_lhs => rw [on_async_read_some]
    conv_rhs => rw [on_async_read_some]
    simp only at hout ⊢
    by_cases hec : ec ≠ 0
    · simp only [if_pos hec]
    · simp only [if_neg hec] at hout ⊢
      by_cases hfin : L.finished (if 0 < chunk.length then L.analyze s (buf ++ chunk) else s)
      · simp only [if_pos hfin] at hout ⊢
      · simp only [if_neg hfin] at hout ⊢
        by_cases hlt : (buf ++ chunk).length < L.max_needed s
        · simp only [if_pos hlt] at hout ⊢
          rw [ih _ _ e' _ v e lo k ext hout]
        · simp only [if_neg hlt] at hout ⊢

/-- Every read scheduled by the suspending loop happens only while the arena
is short (`available < needed`, the values `check_postcondition` validated),
and the prepared buffer is exactly `needed - available` bytes. -/
theorem async_reqs_bound {σ : Type} (L : Logic σ) (h : Handlers) :
    ∀ (evs : List (Err × List Byte)) (s : σ) (buf : List Byte) (ec : Err)
      (chunk : List Byte) (q : ReadReq),
      q ∈ (on_async_read_some L h s buf ec chunk evs).reqs →
      q.available < q.needed ∧ q.size = q.needed - q.available := by
  intro evs
  induction evs with
  | nil =>
    intro s buf ec chunk q hq
    rw [on_async_read_some] at hq
    simp only at hq
    by_cases hec : ec ≠ 0
    · simp only [if_pos hec] at hq
      simp at hq
    · simp only [if_neg hec] at hq
      by_cases hfin : L.finished (if 0 < chunk.length then L.analyze s (buf ++ chunk) else s)
      · simp only [if_pos hfin] at hq
        split_ifs at hq <;> simp_all
      · simp only [if_neg hfin] at hq
        by_cases hlt : (buf ++ chunk).length < L.max_needed s
        · simp only [if_pos hlt] at hq
          simp at hq
          subst hq
          exact ⟨by simpa using hlt, rfl⟩
        · simp only [if_neg hlt] at hq
          simp at hq
  | cons ev rest ih =>
    intro s buf ec chunk q hq
    obtain ⟨e', bs⟩ := ev
    rw [on_async_read_some] at hq
    simp only at hq
    by_cases hec : ec ≠ 0
    · simp only [if_pos hec] at hq
      simp at hq
    · simp only [if_neg hec] at hq
      by_cases hfin : L.finished (if 0 < chunk.length then L.analyze s (buf ++ chunk) else s)
      · simp only [if_pos hfin] at hq
        split_ifs at hq <;> simp_all
      · simp only [if_neg hfin] at hq
        by_cases hlt : (buf ++ chunk).length < L.max_needed s
        · simp only [if_pos hlt] at hq
          simp only [List.mem_cons] at hq
          rcases hq with hq | hq
          · subst hq
            exact ⟨by simpa using hlt, rfl⟩
          · exact ih _ _ e' _ q hq
        · simp only [if_neg hlt] at hq
          simp at hq

/-- If the policy never claims to have consumed more than the bytes it was
given to analyze, and the entry state is unfinished or consumes nothing, the
suspending loop's `bassert (consumed <= size)` holds. -/
theorem async_no_assert {σ : Type} (L : Logic σ) (h : Handlers)
    (hB : ∀ (s : σ) (bs : List Byte), L.bytes_consumed (L.analyze s bs) ≤ bs.length) :
    ∀ (evs : List (Err × List Byte)) (s : σ) (buf : List Byte) (ec : Err)
      (chunk : List Byte),
      (L.finished s = false ∨ L.bytes_consumed s ≤ (buf ++ chunk).length) →
      (on_async_read_some L h s buf ec chunk evs).outcome ≠ .fatalAssert := by
  intro evs
  induction evs with
  | nil =>
    intro s buf ec chunk hs
    rw [on_async_read_some]
    simp only
    by_cases hec : ec ≠ 0
    · simp only [if_pos hec]
      simp
    · simp only [if_neg hec]
      by_cases hch : 0 < chunk.length
      · simp only [if_pos hch]
        split_ifs with h1 h2
        · simp
        · exact absurd (hB s _) h2
        · simp
        · simp
      · simp only [if_neg hch]
        split_ifs with h1 h2
        · simp
        · rcases hs with hs | hs
          · simp_all
          · exact absurd hs h2
        · simp
        · simp
  | cons ev rest ih =>
    intro s buf ec chunk hs
    obtain ⟨e', bs⟩ := ev
    rw [on_async_read_some]
    simp only
    by_cases hec : ec ≠ 0
    · simp only [if_pos hec]
      simp
    · simp only [if_neg hec]
      by_cases hch : 0 < chunk.length
      · simp only [if_pos hch]
        split_ifs with h1 h2 h3
        · simp
        · exact absurd (hB s _) h2
        · exact ih _ _ e' _ (Or.inl (by simpa using h1))
        · simp
      · simp only [if_neg hch]
        split_ifs with h1 h2 h3
        · simp
        · rcases hs with hs | hs
          · simp_all
          · exact absurd hs h2
        · exact ih _ _ e' _ (Or.inl (by simpa using h1))
        · simp

/-! ## Both loop variants project onto the canonical accumulate-then-classify
run, for policies with history-independent `analyze`, constant `bytesNeeded`,
and no verdict below the needed byte count. -/

/-- The blocking loop's observable equals the canonical run. -/
theorem blocking_obs_eq_gRun {σ : Type} (L : Logic σ) (cb : σ → Err → List Byte → Err)
    (s0 : σ) (N : Nat)
    (hA : ∀ (s t : σ) (bs : List Byte), L.analyze s bs = L.analyze t bs)
    (hN : ∀ s : σ, L.max_needed s = N)
    (hstab : ∀ (s : σ) (bs : List Byte), bs.length < N → L.finished (L.analyze s bs) = false) :
    ∀ (evs : List (Err × List Byte)) (s : σ) (buf : List Byte),
      (blockingLoop L cb s buf evs).outcome.obs = gRun L s0 N buf evs := by
  intro evs
  induction evs with
  | nil =>
    intro s buf
    rw [blockingLoop, gRun]
    simp only [hN]
    by_cases hlt : buf.length < N
    · simp only [if_pos hlt, if_neg (by omega : ¬ N ≤ buf.length)]
      rfl
    · simp only [if_neg hlt, if_pos (by omega : N ≤ buf.length)]
      rw [hA s s0, gFin]
      split_ifs <;> rfl
  | cons ev rest ih =>
    intro s buf
    obtain ⟨e', bs⟩ := ev
    rw [blockingLoop, gRun]
    simp only [hN]
    by_cases hlt : buf.length < N
    · simp only [if_pos hlt, if_neg (by omega : ¬ N ≤ buf.length)]
      by_cases he : e' ≠ 0
      · simp only [if_pos he]
        rfl
      · simp only [if_neg he]
        by_cases hfin : L.finished (L.analyze s (buf ++ bs.take (N - buf.length)))
        · have hlen : N ≤ (buf ++ bs.take (N - buf.length)).length := by
            by_contra hcon
            push_neg at hcon
            rw [hstab s _ hcon] at hfin
            exact absurd hfin (by simp)
          rw [hA s s0] at hfin ⊢
          simp only [if_pos hfin]
          rw [gRun.eq_def]
          simp only [if_pos hlen]
          rw [gFin]
          simp only [if_pos hfin]
          split_ifs <;> rfl
        · simp only [if_neg hfin]
          exact ih _ _
    · simp only [if_neg hlt, if_pos (by omega : N ≤ buf.length)]
      rw [hA s s0, gFin]
      split_ifs <;> rfl

/-- The suspending loop's observable equals the canonical run, entered at a
not-yet-finished state; when the completed chunk is empty the arena must
still be short (which holds at the bootstrap and is preserved). -/
theorem async_obs_eq_gRun {σ : Type} (L : Logic σ) (h : Handlers) (s0 : σ) (N : Nat)
    (hA : ∀ (s t : σ) (bs : List Byte), L.analyze s bs = L.analyze t bs)
    (hN : ∀ s : σ, L.max_needed s = N)
    (hstab : ∀ (s : σ) (bs : List Byte), bs.length < N → L.finished (L.analyze s bs) = false) :
    ∀ (evs : List (Err × List Byte)) (s : σ) (buf chunk : List Byte),
      L.finished s = false →
      (chunk.length = 0 → buf.length < N) →
      (on_async_read_some L h s buf 0 chunk evs).outcome.obs
        = gRun L s0 N (buf ++ chunk) evs := by
  intro evs
  induction evs with
  | nil =>
    intro s buf chunk hfs hlen0
    rw [on_async_read_some, gRun]
    simp only [hN]
    simp only [if_neg (by simp : ¬ (0 : Err) ≠ 0)]
    by_cases hch : 0 < chunk.length
    · simp only [if_pos hch]
      by_cases hfin : L.finished (L.analyze s (buf ++ chunk))
      · have hlen : N ≤ (buf ++ chunk).length := by
          by_contra hcon
          push_neg at hcon
          rw [hstab s _ hcon] at hfin
          exact absurd hfin (by simp)
        rw [hA s s0] at hfin ⊢
        simp only [if_pos hfin, if_pos hlen]
        rw [gFin]
        simp only [if_pos hfin]
        split_ifs <;> rfl
      · simp only [if_neg hfin]
        by_cases hlt : (buf ++ chunk).length < N
        · simp only [if_pos hlt, if_neg (by omega : ¬ N ≤ (buf ++ chunk).length)]
          rfl
        · simp only [if_neg hlt, if_pos (by omega : N ≤ (buf ++ chunk).length)]
          rw [hA s s0] at hfin
          rw [gFin]
          simp only [if_neg hfin]
          rfl
    · simp only [if_neg hch]
      have hch0 : chunk = [] := List.length_eq_zero.mp (by omega)
      subst hch0
      simp only [List.append_nil]
      simp only [if_neg (show ¬ (L.finished s = true) by simp [hfs])]
      have hbuf : buf.length < N := hlen0 rfl
      simp only [if_pos hbuf, if_neg (by omega : ¬ N ≤ buf.length)]
      rfl
  | cons ev rest ih =>
    intro s buf chunk hfs hlen0
    obtain ⟨e', bs⟩ := ev
    rw [on_async_read_some, gRun]
    simp only [hN]
    simp only [if_neg (by simp : ¬ (0 : Err) ≠ 0)]
    by_cases hch : 0 < chunk.length
    · simp only [if_pos hch]
      by_cases hfin : L.finished (L.analyze s (buf ++ chunk))
      · have hlen : N ≤ (buf ++ chunk).length := by
          by_contra hcon
          push_neg at hcon
          rw [hstab s _ hcon] at hfin
          exact absurd hfin (by simp)
        rw [hA s s0] at hfin ⊢
        simp only [if_pos hfin, if_pos hlen]
        rw [gFin]
        simp only [if_pos hfin]
        split_ifs <;> rfl
      · simp only [if_neg hfin]
        by_cases hlt : (buf ++ chunk).length < N
        · simp only [if_pos hlt, if_neg (by omega : ¬ N ≤ (buf ++ chunk).length)]
          by_cases he' : e' ≠ 0
          · conv_lhs => rw [on_async_read_some]
            simp only [if_pos he']
            rfl
          · push_neg at he'
            subst he'
            simp only [if_neg (by simp : ¬ (0 : Err) ≠ 0)]
            exact ih _ _ _ (by simpa using hfin) (fun _ => hlt)
        · have hge : N ≤ (buf ++ chunk).length := by omega
          simp only [if_neg hlt, if_pos hge]
          rw [hA s s0] at hfin
          rw [gFin]
          simp only [if_neg hfin]
          rfl
    · simp only [if_neg hch]
      have hch0 : chunk = [] := List.length_eq_zero.mp (by omega)
      subst hch0
      simp only [List.append_nil]
      simp only [if_neg (show ¬ (L.finished s = true) by simp [hfs])]
      have hbuf : buf.length < N := hlen0 rfl
      simp only [if_pos hbuf, if_neg (by omega : ¬ N ≤ buf.length)]
      by_cases he' : e' ≠ 0
      · conv_lhs => rw [on_async_read_some]
        simp only [if_pos he']
        rfl
      · push_neg at he'
        subst he'
        simp only [if_neg (by simp : ¬ (0 : Err) ≠ 0)]
        exact ih _ _ _ hfs (fun _ => hbuf)

/-- A single large read: the canonical run caps the commit at the prepared
size, so only the first `N` bytes of the supply matter. -/
theorem gRun_single_eq_gBig {σ : Type} (L : Logic σ) (s0 : σ) (N : Nat)
    (buf bs : List Byte) :
    gRun L s0 N buf [(0, bs)] = gBig L s0 N buf bs := by
  rw [gRun, gBig]
  by_cases h1 : N ≤ buf.length
  · simp only [if_pos h1]
  · simp only [if_neg h1]
    simp only [if_neg (by simp : ¬ (0 : Err) ≠ 0)]
    rw [gRun]
    by_cases h2 : N ≤ buf.length + bs.length
    · have heq : buf ++ bs.take (N - buf.length) = (buf ++ bs).take N := by
        rw [List.take_append_eq_append_take]
        rw [List.take_of_length_le (by omega : buf.length ≤ N)]
      have hlen : N ≤ (buf ++ bs.take (N - buf.length)).length := by
        simp only [List.length_append, List.length_take]
        omega
      simp only [if_pos h2, if_pos hlen, heq]
      rw [if_pos (by simp only [List.length_take, List.length_append]; omega :
        N ≤ (List.take N (buf ++ bs)).length)]
    · have hlen : ¬ N ≤ (buf ++ bs.take (N - buf.length)).length := by
        simp only [List.length_append, List.length_take]
        omega
      simp only [if_neg h2, if_neg hlen]

/-- The same bytes as one-byte reads: each read tops the buffer up by one
byte, reaching the same first-`N` prefix, so the canonical run agrees with
the single large read. -/
theorem gRun_oneByte_eq_gBig {σ : Type} (L : Logic σ) (s0 : σ) (N : Nat) :
    ∀ (bs buf : List Byte),
      gRun L s0 N buf (oneByteEvs bs) = gBig L s0 N buf bs := by
  intro bs
  induction bs with
  | nil =>
    intro buf
    rw [oneByteEvs]
    simp only [List.map_nil]
    rw [gRun, gBig]
    by_cases h1 : N ≤ buf.length
    · simp only [if_pos h1]
    · simp only [if_neg h1]
      rw [if_neg (by simp only [List.length_nil]; omega : ¬ N ≤ buf.length + List.length ([] : List Byte))]
  | cons b bs' ih =>
    intro buf
    rw [oneByteEvs]
    simp only [List.map_cons]
    rw [gRun, gBig]
    by_cases h1 : N ≤ buf.length
    · simp only [if_pos h1]
    · simp only [if_neg h1]
      simp only [if_neg (by simp : ¬ (0 : Err) ≠ 0)]
      have htake : List.take (N - buf.length) [b] = [b] := by
        apply List.take_of_length_le
        simp only [List.length_cons, List.length_nil]
        omega
      rw [htake]
      have hih := ih (buf ++ [b])
      rw [oneByteEvs] at hih
      rw [hih]
      rw [gBig]
      by_cases h2 : N ≤ buf.length + 1
      · rw [if_pos (by simp only [List.length_append, List.length_cons, List.length_nil]; omega :
          N ≤ (buf ++ [b]).length)]
        have heq : buf ++ [b] = (buf ++ b :: bs').take N := by
          rw [List.take_append_eq_append_take]
          rw [List.take_of_length_le (by omega : buf.length ≤ N)]
          have hone : N - buf.length = 1 := by omega
          rw [hone]
          simp
        rw [heq]
        rw [if_pos (by simp only [List.length_cons]; omega :
          N ≤ buf.length + (b :: bs').length)]
      · rw [if_neg (by simp only [List.length_append, List.length_cons, List.length_nil]; omega :
          ¬ N ≤ (buf ++ [b]).length)]
        by_cases h3 : N ≤ buf.length + 1 + bs'.length
        · rw [if_pos (by simp only [List.length_append, List.length_cons, List.length_nil]; omega :
            N ≤ (buf ++ [b]).length + bs'.length)]
          rw [if_pos (by simp only [List.length_cons]; omega :
            N ≤ buf.length + (b :: bs').length)]
          have heq : (buf ++ [b]) ++ bs' = buf ++ b :: bs' := by simp
          rw [heq]
        · rw [if_neg (by simp only [List.length_append, List.length_cons, List.length_nil]; omega :
            ¬ N ≤ (buf ++ [b]).length + bs'.length)]
          rw [if_neg (by simp only [List.length_cons]; omega :
            ¬ N ≤ buf.length + (b :: bs').length)]

/-- A successful completion's bytes are the first chunk the suspending run
commits; the remaining chunks come from the subsequent transport reads. -/
theorem async_chunks_cons {σ : Type} (L : Logic σ) (h : Handlers) (s : σ)
    (buf chunk : List Byte) (evs : List (Err × List Byte)) :
    ∃ tc, (on_async_read_some L h s buf 0 chunk evs).chunks = chunk :: tc := by
  rw [on_async_read_some.eq_def]
  simp only [if_neg (by simp : ¬ (0 : Err) ≠ 0)]
  cases evs with
  | nil => split_ifs <;> exact ⟨_, rfl⟩
  | cons ev rest =>
    obtain ⟨e', bs⟩ := ev
    split_ifs <;> exact ⟨_, rfl⟩

/-- Every delivery of the suspending loop goes to the overload selected by
the populated continuation slot. -/
theorem async_delivered_kind {σ : Type} (L : Logic σ) (h : Handlers) :
    ∀ (evs : List (Err × List Byte)) (s : σ) (buf : List Byte) (ec : Err)
      (chunk : List Byte) (k : HandlerKind),
      (on_async_read_some L h s buf ec chunk evs).outcome.deliveredTo = some k →
      k = h.kind := by
  intro evs s buf ec chunk k hk
  cases hout : (on_async_read_some L h s buf ec chunk evs).outcome with
  | detected v re lo => rw [hout] at hk; simp [Outcome.deliveredTo] at hk
  | transportError e => rw [hout] at hk; simp [Outcome.deliveredTo] at hk
  | asyncDetected v lo k' =>
    rw [hout] at hk
    simp only [Outcome.deliveredTo, Option.some.injEq] at hk
    subst hk
    exact (async_detected_char L h evs s buf ec chunk v lo k' hout).1
  | asyncError v e lo k' =>
    rw [hout] at hk
    simp only [Outcome.deliveredTo, Option.some.injEq] at hk
    subst hk
    exact (async_error_char L h evs s buf ec chunk v e lo k' hout).1
  | fatalCheck => rw [hout] at hk; simp [Outcome.deliveredTo] at hk
  | fatalAssert => rw [hout] at hk; simp [Outcome.deliveredTo] at hk
  | outOfInput => rw [hout] at hk; simp [Outcome.deliveredTo] at hk

/-! ## Claim theorems -/

/-- C1 (counterexample to the claim as stated): when the very first blocking
read fails with error 7, `do_handshake` returns `transportError 7` without
ever invoking the Result Handler's `on_detect` — the claim's assertion that
the blocking variant delivers the error "via on_detect" is false: the
`if (! ec)` guard at line 212 skips the delivery and the loop just returns
`ec` (lines 231-233). -/
theorem C1_counterexample :
    (do_handshake sslL cb0 none 0 [] [] [(7, [])]).outcome = .transportError 7
    ∧ (do_handshake sslL cb0 none 0 [] [] [(7, [])]).outcome.onDetectCalled = false := by
  decide

/-- C1 (amended): if a transport read completes with an error before the
policy is finished, the loop issues no further reads and no further analyze
calls (appending extra transport completions changes nothing about the run).
The suspending variant delivers that exact nonzero error, with all bytes
buffered so far, to the `on_async_detect` overload matching the populated
continuation slot; the blocking variant does not invoke `on_detect` at all
but returns that exact error from `do_handshake` to its caller. -/
theorem C1_error_abort {σ : Type} (L : Logic σ) (cb : σ → Err → List Byte → Err)
    (h : Handlers) (s0 : σ) (ecIn : Err) (fillBytes initial : List Byte)
    (evs ext : List (Err × List Byte)) :
    (∀ e, (do_handshake L cb s0 ecIn fillBytes initial evs).outcome = .transportError e →
      do_handshake L cb s0 ecIn fillBytes initial (evs ++ ext)
        = do_handshake L cb s0 ecIn fillBytes initial evs
      ∧ e ≠ 0
      ∧ handshake_return (do_handshake L cb s0 ecIn fillBytes initial evs) = some e
      ∧ (do_handshake L cb s0 ecIn fillBytes initial evs).outcome.onDetectCalled = false)
    ∧ (∀ v e lo k,
        (async_do_handshake L h s0 fillBytes initial evs).outcome = .asyncError v e lo k →
      async_do_handshake L h s0 fillBytes initial (evs ++ ext)
        = async_do_handshake L h s0 fillBytes initial evs
      ∧ e ≠ 0
      ∧ k = h.kind
      ∧ lo = fillBytes ++ (async_do_handshake L h s0 fillBytes initial evs).chunks.flatten) := by
  constructor
  · intro e hout
    refine ⟨blocking_error_ext L cb evs s0 _ e ext hout,
      blocking_error_nonzero L cb evs s0 _ e hout, ?_, ?_⟩
    · rw [handshake_return, hout]
    · rw [hout]
      rfl
  · intro v e lo k hout
    obtain ⟨hk, he, hlo⟩ := async_error_char L h evs s0 fillBytes 0 initial v e lo k hout
    exact ⟨async_error_ext L h evs s0 fillBytes 0 initial v e lo k ext hout, he, hk, hlo⟩

/-- C1 witness: a concrete transport failure on the first read, in both
variants; extra completions after the error leave both runs unchanged. -/
theorem C1_witness :
    do_handshake sslL cb0 none 0 [] [] ([(7, [])] ++ [(0, [9])])
      = do_handshake sslL cb0 none 0 [] [] [(7, [])]
    ∧ async_do_handshake sslL (async_handshake_plain emptyHandlers) none [] []
        ([(7, [])] ++ [(0, [9])])
      = async_do_handshake sslL (async_handshake_plain emptyHandlers) none [] [] [(7, [])] :=
  ⟨((C1_error_abort sslL cb0 (async_handshake_plain emptyHandlers) none 0 [] []
      [(7, [])] [(0, [9])]).1 7 (by decide)).1,
   ((C1_error_abort sslL cb0 (async_handshake_plain emptyHandlers) none 0 [] []
      [(7, [])] [(0, [9])]).2 none 7 [] .errorOnly (by decide)).1⟩

/-- C2: if `fill` supplied at least `bytesNeeded ()` bytes (as queried on the
initial policy state) before detection starts, neither variant ever issues a
transport read: the run terminates — by delivering the verdict, or by the
fatal contract check — with an empty read-request list. -/
theorem C2_zero_read_shortcut {σ : Type} (L : Logic σ) (cb : σ → Err → List Byte → Err)
    (h : Handlers) (s0 : σ) (ecIn : Err) (fillBytes initial : List Byte)
    (evs : List (Err × List Byte))
    (hfill : L.max_needed s0 ≤ fillBytes.length) :
    (do_handshake L cb s0 ecIn fillBytes initial evs).reqs = []
    ∧ (async_do_handshake L h s0 fillBytes initial evs).reqs = [] := by
  have hge : ¬ (fillBytes ++ initial).length < L.max_needed s0 := by
    simp only [List.length_append]
    omega
  constructor
  · rw [do_handshake, blockingLoop.eq_def]
    simp only [if_neg hge]
    split_ifs <;> rfl
  · rw [async_do_handshake, on_async_read_some.eq_def]
    simp only [if_neg (by simp : ¬ (0 : Err) ≠ 0)]
    split_ifs <;> rfl

/-- C2 witness: one pre-filled byte for the one-byte policy; no reads. -/
theorem C2_witness :
    (do_handshake sslL cb0 none 0 [22] [] []).reqs = []
    ∧ (async_do_handshake sslL (async_handshake_plain emptyHandlers) none [22] [] []).reqs = [] :=
  C2_zero_read_shortcut sslL cb0 (async_handshake_plain emptyHandlers) none 0 [22] [] []
    (by decide)

/-- C3 (counterexample to the claim as stated): with a contract-satisfying
one-byte policy and one byte supplied only via `fill` (empty initial bytes),
the blocking variant analyzes the filled byte and delivers the verdict,
while the suspending bootstrap skips `analyze` (zero bytes transferred) and
aborts in `check_postcondition` — different verdict/leftover observables. -/
theorem C3_counterexample :
    (do_handshake sslL cb0 none 0 [22] [] []).outcome.obs
      ≠ (async_do_handshake sslL (async_handshake_plain emptyHandlers) none
          [22] [] []).outcome.obs := by
  decide

/-- C3 (amended): for every policy with history-independent `analyze`,
constant positive `bytesNeeded`, an unfinished initial state and no verdict
below the needed byte count, and with all pre-supplied bytes passed as the
invocation's initial bytes (no `fill` bytes), the blocking and suspending
variants produce the same observable: same verdict and leftover bytes on
success, same error on transport failure, same abort class otherwise. -/
theorem C3_variant_equivalence {σ : Type} (L : Logic σ) (cb : σ → Err → List Byte → Err)
    (h : Handlers) (s0 : σ) (ecIn : Err) (N : Nat)
    (hA : ∀ (s t : σ) (bs : List Byte), L.analyze s bs = L.analyze t bs)
    (hN : ∀ s : σ, L.max_needed s = N)
    (hN0 : 0 < N)
    (hfs0 : L.finished s0 = false)
    (hstab : ∀ (s : σ) (bs : List Byte), bs.length < N → L.finished (L.analyze s bs) = false)
    (initial : List Byte) (evs : List (Err × List Byte)) :
    (do_handshake L cb s0 ecIn [] initial evs).outcome.obs
      = (async_do_handshake L h s0 [] initial evs).outcome.obs := by
  rw [do_handshake, async_do_handshake]
  rw [blocking_obs_eq_gRun L cb s0 N hA hN hstab]
  rw [async_obs_eq_gRun L h s0 N hA hN hstab evs s0 [] initial hfs0
    (fun _ => by simpa using hN0)]

/-- C3 witness: both variants on the same one-byte input agree. -/
theorem C3_witness :
    (do_handshake sslL cb0 none 0 [] [22] []).outcome.obs
      = (async_do_handshake sslL (async_handshake_plain emptyHandlers) none
          [] [22] []).outcome.obs :=
  C3_variant_equivalence sslL cb0 (async_handshake_plain emptyHandlers) none 0 1
    (fun _ _ _ => rfl) (fun _ => rfl) (by decide) (by decide)
    (fun s bs hl => by
      have hnil : bs = [] := List.length_eq_zero.mp (by omega)
      subst hnil
      rfl)
    [22] []

/-- C4: when detection finishes, the consumed front concatenated with the
delivered leftover is exactly the full sequence of bytes ever committed to
the arena, in order: the filled bytes, then the initial bytes, then every
transport chunk (for the suspending variant the initial bytes are the first
committed chunk). No byte is lost or duplicated. -/
theorem C4_no_loss_no_duplication {σ : Type} (L : Logic σ) (cb : σ → Err → List Byte → Err)
    (h : Handlers) (s0 : σ) (ecIn : Err) (fillBytes initial : List Byte)
    (evs : List (Err × List Byte)) :
    (∀ v re lo, (do_handshake L cb s0 ecIn fillBytes initial evs).outcome = .detected v re lo →
      ((fillBytes ++ initial) ++ (do_handshake L cb s0 ecIn fillBytes initial evs).chunks.flatten).take
          (L.bytes_consumed v) ++ lo
        = (fillBytes ++ initial) ++ (do_handshake L cb s0 ecIn fillBytes initial evs).chunks.flatten)
    ∧ (∀ v lo k,
        (async_do_handshake L h s0 fillBytes initial evs).outcome = .asyncDetected v lo k →
      (fillBytes ++ (async_do_handshake L h s0 fillBytes initial evs).chunks.flatten).take
          (L.bytes_consumed v) ++ lo
        = fillBytes ++ (async_do_handshake L h s0 fillBytes initial evs).chunks.flatten
      ∧ ∃ tc, (async_do_handshake L h s0 fillBytes initial evs).chunks = initial :: tc) := by
  constructor
  · intro v re lo hout
    obtain ⟨hre, hlo⟩ := blocking_detected_char L cb evs s0 (fillBytes ++ initial) v re lo hout
    rw [hlo]
    exact List.take_append_drop _ _
  · intro v lo k hout
    obtain ⟨hk, hlo⟩ := async_detected_char L h evs s0 fillBytes 0 initial v lo k hout
    refine ⟨?_, async_chunks_cons L h s0 fillBytes initial evs⟩
    rw [hlo]
    exact List.take_append_drop _ _

/-- C4 witness: one transport byte, peek-only detection, nothing consumed. -/
theorem C4_witness :
    (([] ++ []) ++ (do_handshake sslL cb0 none 0 [] [] [(0, [22])]).chunks.flatten).take
        (sslL.bytes_consumed (some [22])) ++ [22]
      = ([] ++ []) ++ (do_handshake sslL cb0 none 0 [] [] [(0, [22])]).chunks.flatten :=
  (C4_no_loss_no_duplication sslL cb0 (async_handshake_plain emptyHandlers) none 0 [] []
    [(0, [22])]).1 (some [22]) 0 [22] (by decide)

/-- C5: whenever the policy reports "not finished" while the arena already
holds at least `bytesNeeded ()` bytes, both variants run straight into the
fatal `check_postcondition (available < needed)` abort — no error is
reported through the normal channel, no handler is invoked, and no further
transport read is issued (the read-request list from that point is empty).
For the blocking loop the condition is stated at the top of an iteration;
for the suspending loop at a successful completion, where `needed` is
queried on the pre-analyze state, exactly as the code does. -/
theorem C5_contract_violation_fatal {σ : Type} (L : Logic σ)
    (cb : σ → Err → List Byte → Err) (h : Handlers) :
    (∀ (s : σ) (buf : List Byte) (evs : List (Err × List Byte)),
      L.max_needed s ≤ buf.length →
      L.finished (L.analyze s buf) = false →
      blockingLoop L cb s buf evs = ⟨.fatalCheck, [], [], 1⟩)
    ∧ (∀ (s : σ) (buf chunk : List Byte) (evs : List (Err × List Byte)),
      L.max_needed s ≤ (buf ++ chunk).length →
      L.finished (if 0 < chunk.length then L.analyze s (buf ++ chunk) else s) = false →
      on_async_read_some L h s buf 0 chunk evs
        = ⟨.fatalCheck, [], [chunk], if 0 < chunk.length then 1 else 0⟩) := by
  constructor
  · intro s buf evs hge hnf
    rw [blockingLoop.eq_def]
    simp only [if_neg (by omega : ¬ buf.length < L.max_needed s)]
    simp only [if_neg (show ¬ (L.finished (L.analyze s buf) = true) by simp [hnf])]
  · intro s buf chunk evs hge hnf
    rw [on_async_read_some.eq_def]
    simp only [if_neg (by simp : ¬ (0 : Err) ≠ 0)]
    simp only [if_neg (show ¬ ((L.finished
      (if 0 < chunk.length then L.analyze s (buf ++ chunk) else s)) = true) by simp [hnf])]
    simp only [if_neg (by omega : ¬ (buf ++ chunk).length < L.max_needed s)]

/-- C5 witness: the varying-need policy holding as many bytes as it asked
for while still unfinished, in both variants. -/
theorem C5_witness :
    blockingLoop varL cbv [1, 2] [1, 2] [] = ⟨.fatalCheck, [], [], 1⟩
    ∧ on_async_read_some varL (async_handshake_plain emptyHandlers) [9] [1] 0 [2] []
        = ⟨.fatalCheck, [], [[2]], if 0 < [2].length then 1 else 0⟩ :=
  ⟨(C5_contract_violation_fatal varL cbv (async_handshake_plain emptyHandlers)).1
      [1, 2] [1, 2] [] (by decide) (by decide),
   (C5_contract_violation_fatal varL cbv (async_handshake_plain emptyHandlers)).2
      [9] [1] [2] [] (by decide) (by decide)⟩

/-- C6: each `async_handshake` entry point populates exactly its own
continuation slot of a freshly constructed stream — the error-only entry
sets `m_origHandler` and leaves `m_origBufferedHandler` null, the buffered
entry conversely — and every delivery the suspending loop ever makes
(success or error) goes to the `on_async_detect` overload matching the
populated slot. -/
theorem C6_single_continuation {σ : Type} (L : Logic σ) (s0 : σ)
    (fillBytes initial : List Byte) (evs : List (Err × List Byte)) :
    (async_handshake_plain emptyHandlers).origHandler = true
    ∧ (async_handshake_plain emptyHandlers).origBufferedHandler = false
    ∧ (async_handshake_buffered emptyHandlers).origBufferedHandler = true
    ∧ (async_handshake_buffered emptyHandlers).origHandler = false
    ∧ (∀ k, (async_do_handshake L (async_handshake_plain emptyHandlers) s0
          fillBytes initial evs).outcome.deliveredTo = some k → k = .errorOnly)
    ∧ (∀ k, (async_do_handshake L (async_handshake_buffered emptyHandlers) s0
          fillBytes initial evs).outcome.deliveredTo = some k → k = .errorPlusCount) := by
  refine ⟨rfl, rfl, rfl, rfl, ?_, ?_⟩
  · intro k hk
    exact async_delivered_kind L (async_handshake_plain emptyHandlers)
      evs s0 fillBytes 0 initial k hk
  · intro k hk
    exact async_delivered_kind L (async_handshake_buffered emptyHandlers)
      evs s0 fillBytes 0 initial k hk

/-- C6 witness: a verdict delivery under the error-only entry and an error
delivery under the buffered entry each reach the matching overload. -/
theorem C6_witness :
    HandlerKind.errorOnly = HandlerKind.errorOnly
    ∧ HandlerKind.errorPlusCount = HandlerKind.errorPlusCount :=
  ⟨(C6_single_continuation sslL none [] [22] []).2.2.2.2.1 .errorOnly (by decide),
   (C6_single_continuation sslL none [] [] [(7, [])]).2.2.2.2.2 .errorPlusCount (by decide)⟩

/-- C7: under the precondition that the policy never reports more consumed
bytes than the bytes it was last given to analyze (and nothing before any
analyze), the `bassert (consumed <= m_buffer.size ())` holds in both
variants: no run ends in the assertion-failure outcome, so `consume` is
always called within the readable byte count. -/
theorem C7_consume_bounded {σ : Type} (L : Logic σ) (cb : σ → Err → List Byte → Err)
    (h : Handlers) (s0 : σ) (ecIn : Err) (fillBytes initial : List Byte)
    (evs : List (Err × List Byte))
    (hB : ∀ (s : σ) (bs : List Byte), L.bytes_consumed (L.analyze s bs) ≤ bs.length)
    (hs0 : L.bytes_consumed s0 = 0) :
    (do_handshake L cb s0 ecIn fillBytes initial evs).outcome ≠ .fatalAssert
    ∧ (async_do_handshake L h s0 fillBytes initial evs).outcome ≠ .fatalAssert :=
  ⟨blocking_no_assert L cb hB evs s0 _,
   async_no_assert L h hB evs s0 fillBytes 0 initial (Or.inr (by rw [hs0]; omega))⟩

/-- C7 witness: the peek-only policy (which consumes nothing) never trips
the consumed-bounds assertion. -/
theorem C7_witness :
    (do_handshake sslL cb0 none 0 [] [22] [(0, [22])]).outcome ≠ .fatalAssert
    ∧ (async_do_handshake sslL (async_handshake_plain emptyHandlers) none
        [] [22] [(0, [22])]).outcome ≠ .fatalAssert :=
  C7_consume_bounded sslL cb0 (async_handshake_plain emptyHandlers) none 0 [] [22]
    [(0, [22])] (fun _ _ => Nat.zero_le _) rfl

/-- C8 (counterexample to the claim as stated): a policy whose `analyze` is a
history-independent re-scan from offset 0 and whose verdict never changes
while fewer than `bytesNeeded ()` bytes are present — but whose
`bytesNeeded ()` varies with state (3 when fresh, 2 once anything was
scanned) — gives different results for one-byte reads versus one large read:
the one-byte run hits the fatal contract check after two bytes, while the
single large read of three bytes reaches the verdict. -/
theorem C8_counterexample :
    ¬ (∀ (L : Logic (List Nat)) (s0 : List Nat) (cb : List Nat → Err → List Byte → Err),
        (∀ (s t : List Nat) (bs : List Byte), L.analyze s bs = L.analyze t bs) →
        (∀ bs : List Byte, bs.length < L.max_needed s0 →
          L.finished (L.analyze s0 bs) = L.finished s0) →
        (∀ (bs ext : List Byte), (bs ++ ext).length < L.max_needed (L.analyze s0 bs) →
          L.finished (L.analyze s0 (bs ++ ext)) = L.finished (L.analyze s0 bs)) →
        ∀ bs : List Byte,
          (do_handshake L cb s0 0 [] [] (oneByteEvs bs)).outcome.obs
            = (do_handshake L cb s0 0 [] [] [(0, bs)]).outcome.obs) := by
  intro hcl
  have h1 : ∀ (s t : List Nat) (bs : List Byte), varL.analyze s bs = varL.analyze t bs :=
    fun _ _ _ => rfl
  have h2 : ∀ bs : List Byte, bs.length < varL.max_needed [] →
      varL.finished (varL.analyze [] bs) = varL.finished [] := by
    intro bs hlen
    have hm : varL.max_needed [] = 3 := rfl
    rw [hm] at hlen
    show decide (3 ≤ bs.length) = decide (3 ≤ List.length ([] : List Nat))
    simp only [decide_eq_decide, List.length_nil]
    omega
  have h3 : ∀ (bs ext : List Byte), (bs ++ ext).length < varL.max_needed (varL.analyze [] bs) →
      varL.finished (varL.analyze [] (bs ++ ext)) = varL.finished (varL.analyze [] bs) := by
    intro bs ext hlen
    simp only [varL] at hlen ⊢
    simp only [List.length_append] at hlen
    simp only [decide_eq_decide, List.length_append]
    split_ifs at hlen <;> omega
  have hud := hcl varL [] cbv h1 h2 h3 [1, 2, 3]
  revert hud
  decide

/-- C8 (amended): for every policy with history-independent `analyze`,
constant positive `bytesNeeded`, an unfinished initial state and no verdict
below the needed byte count, delivering a byte sequence as many one-byte
transport reads and delivering it as a single large read yield the same
observable (verdict and leftover on success, abort class otherwise) in both
loop variants. -/
theorem C8_chunking_independence {σ : Type} (L : Logic σ) (cb : σ → Err → List Byte → Err)
    (h : Handlers) (s0 : σ) (ecIn : Err) (N : Nat)
    (hA : ∀ (s t : σ) (bs : List Byte), L.analyze s bs = L.analyze t bs)
    (hN : ∀ s : σ, L.max_needed s = N)
    (hN0 : 0 < N)
    (hfs0 : L.finished s0 = false)
    (hstab : ∀ (s : σ) (bs : List Byte), bs.length < N → L.finished (L.analyze s bs) = false)
    (bs : List Byte) :
    ((do_handshake L cb s0 ecIn [] [] (oneByteEvs bs)).outcome.obs
      = (do_handshake L cb s0 ecIn [] [] [(0, bs)]).outcome.obs)
    ∧ ((async_do_handshake L h s0 [] [] (oneByteEvs bs)).outcome.obs
      = (async_do_handshake L h s0 [] [] [(0, bs)]).outcome.obs) := by
  constructor
  · rw [do_handshake, do_handshake]
    rw [blocking_obs_eq_gRun L cb s0 N hA hN hstab]
    rw [blocking_obs_eq_gRun L cb s0 N hA hN hstab]
    rw [gRun_oneByte_eq_gBig, gRun_single_eq_gBig]
  · rw [async_do_handshake, async_do_handshake]
    rw [async_obs_eq_gRun L h s0 N hA hN hstab (oneByteEvs bs) s0 [] [] hfs0
      (fun _ => by simpa using hN0)]
    rw [async_obs_eq_gRun L h s0 N hA hN hstab [(0, bs)] s0 [] [] hfs0
      (fun _ => by simpa using hN0)]
    rw [gRun_oneByte_eq_gBig, gRun_single_eq_gBig]

/-- C8 witness: one byte fed as a one-byte read versus as the (single) large
read agrees, in both variants. -/
theorem C8_witness :
    ((do_handshake sslL cb0 none 0 [] [] (oneByteEvs [22])).outcome.obs
      = (do_handshake sslL cb0 none 0 [] [] [(0, [22])]).outcome.obs)
    ∧ ((async_do_handshake sslL (async_handshake_plain emptyHandlers) none [] []
          (oneByteEvs [22])).outcome.obs
      = (async_do_handshake sslL (async_handshake_plain emptyHandlers) none [] []
          [(0, [22])]).outcome.obs) :=
  C8_chunking_independence sslL cb0 (async_handshake_plain emptyHandlers) none 0 1
    (fun _ _ _ => rfl) (fun _ => rfl) (by decide) (by decide)
    (fun s bs hl => by
      have hnil : bs = [] := List.length_eq_zero.mp (by omega)
      subst hnil
      rfl)
    [22]

/-- C9: in both variants, every read request issued to the transport happens
only while `available < needed`, and the mutable buffer prepared for the
transport is exactly `needed - available` bytes — the loop never asks the
transport for more bytes than the policy's stated need. -/
theorem C9_no_overread {σ : Type} (L : Logic σ) (cb : σ → Err → List Byte → Err)
    (h : Handlers) (s0 : σ) (ecIn : Err) (fillBytes initial : List Byte)
    (evs : List (Err × List Byte)) :
    (∀ q ∈ (do_handshake L cb s0 ecIn fillBytes initial evs).reqs,
        q.available < q.needed ∧ q.size = q.needed - q.available)
    ∧ (∀ q ∈ (async_do_handshake L h s0 fillBytes initial evs).reqs,
        q.available < q.needed ∧ q.size = q.needed - q.available) :=
  ⟨fun q hq => blocking_reqs_bound L cb evs s0 _ q hq,
   fun q hq => async_reqs_bound L h evs s0 fillBytes 0 initial q hq⟩

/-- C9 witness: the single read issued for the one-byte policy requests
exactly one byte while one byte is needed and none is available. -/
theorem C9_witness :
    (⟨0, 1, 1⟩ : ReadReq).available < (⟨0, 1, 1⟩ : ReadReq).needed
    ∧ (⟨0, 1, 1⟩ : ReadReq).size = (⟨0, 1, 1⟩ : ReadReq).needed - (⟨0, 1, 1⟩ : ReadReq).available :=
  (C9_no_overread sslL cb0 (async_handshake_plain emptyHandlers) none 0 [] []
    [(0, [22])]).1 ⟨0, 1, 1⟩ (by decide)

/-- C10: the blocking variant resets the caller's error slot on entry — the
incoming value never influences the run — and when detection finishes the
value returned by `handshake` is exactly whatever the Result Handler's
`on_detect` left in the mutable error argument (entered as success), so the
handler can replace a successful status with any error. -/
theorem C10_handler_controls_return {σ : Type} (L : Logic σ)
    (cb : σ → Err → List Byte → Err) (s0 : σ) (fillBytes initial : List Byte)
    (evs : List (Err × List Byte)) :
    (∀ ec1 ec2, do_handshake L cb s0 ec1 fillBytes initial evs
        = do_handshake L cb s0 ec2 fillBytes initial evs)
    ∧ (∀ ecIn v re lo,
        (do_handshake L cb s0 ecIn fillBytes initial evs).outcome = .detected v re lo →
        re = cb v 0 lo
        ∧ handshake_return (do_handshake L cb s0 ecIn fillBytes initial evs)
            = some (cb v 0 lo)) := by
  constructor
  · intro _ _
    rfl
  · intro ecIn v re lo hout
    obtain ⟨hre, hlo⟩ := blocking_detected_char L cb evs s0 (fillBytes ++ initial) v re lo hout
    refine ⟨hre, ?_⟩
    rw [handshake_return, hout, hre]

/-- C10 witness: a handler that overwrites `ec` with 7 makes `handshake`
return 7 on a successful detection, whatever the incoming error slot held. -/
theorem C10_witness :
    do_handshake sslL cb7 none 3 [] [] [(0, [22])]
      = do_handshake sslL cb7 none 5 [] [] [(0, [22])]
    ∧ (7 : Err) = cb7 (some [22]) 0 [22]
    ∧ handshake_return (do_handshake sslL cb7 none 3 [] [] [(0, [22])])
        = some (cb7 (some [22]) 0 [22]) :=
  ⟨(C10_handler_controls_return sslL cb7 none [] [] [(0, [22])]).1 3 5,
   ((C10_handler_controls_return sslL cb7 none [] [] [(0, [22])]).2 3 (some [22]) 7 [22]
      (by decide)).1,
   ((C10_handler_controls_return sslL cb7 none [] [] [(0, [22])]).2 3 (some [22]) 7 [22]
      (by decide)).2⟩
